import Mathlib

/-!
Verification of the ConeCone repository (file FnConeCone.py).

The program estimates the apex of a cone-shaped landform.  Its pipeline is:
`radius` computes planar distances from control points to a candidate apex and
co-sorts distances with elevations by ascending distance (numpy argsort based
fancy indexing); `errorSpearman` computes the Spearman rank correlation between
distance and elevation (scipy `spearmanr`); `errorPolynome` computes the
least-squares residual of a degree-1 polynomial fit (numpy `polyfit` with
`full=True`); `conecone_CenterProfile` runs a derivative-free minimizer (scipy
`fmin`) over apex coordinates, once per objective, and assembles a result
record.

Modelling decisions, all recorded next to the definitions they concern:
* floats are idealized as real numbers;
* numpy 1-d broadcasting of the two coordinate arrays is modelled by
  `broadcast2`;
* `numpy.argsort` is modelled as a stable sort of the index list by the value
  list (numpy uses introsort, which for the tie cases relevant here, small
  arrays, is insertion sort and hence stable; in any case deterministic);
* the scipy minimizer `fmin` is an external black box and is taken as an
  explicit function parameter, so every theorem below holds for every
  minimizer;
* the p-value of `spearmanr` is discarded by the program, so it is likewise
  taken as an abstract function parameter.
-/

namespace ConeCone

/-- Model of numpy 1-d broadcasting applied to the two coordinate arrays:
elementwise pairing when lengths agree, scalar extension when one side has
length one, and a `ValueError` (here `none`) otherwise. -/
def broadcast2 (x y : List ℝ) : Option (List (ℝ × ℝ)) :=
  if x.length = y.length then some (x.zip y)
  else if x.length = 1 then some (y.map (fun b => (x.headI, b)))
  else if y.length = 1 then some (x.map (fun a => (a, y.headI)))
  else none

/-- Model of `numpy.argsort r`: the list `[0, ..., r.length - 1]` sorted
(stably) by the corresponding values of `r`. -/
noncomputable def argsort (r : List ℝ) : List ℕ :=
  List.insertionSort (fun i j => r.getD i 0 ≤ r.getD j 0) (List.range r.length)

/-- Embedding of the source function `radius`:

  r = np.sqrt( (x-xa)**2 + (y-ya)**2 )
  index = np.argsort(r)
  return r[index], np.array(z)[index]

The subtraction broadcasts `x` against `y` (a scalar apex coordinate always
broadcasts); fancy indexing `np.array(z)[index]` raises `IndexError` (here
`none`) when some index is out of range for `z`. -/
noncomputable def radius (x y z : List ℝ) (xa ya : ℝ) :
    Option (List ℝ × List ℝ) :=
  match broadcast2 x y with
  | none => none
  | some xy =>
    let r := xy.map (fun p => Real.sqrt ((p.1 - xa) ^ 2 + (p.2 - ya) ^ 2))
    let index := argsort r
    if ∀ i ∈ index, i < z.length then
      some (index.map (fun i => r.getD i 0), index.map (fun i => z.getD i 0))
    else none

/-- The distance list computed inside `radius` in the equal-length case. -/
noncomputable def dists (x y : List ℝ) (xa ya : ℝ) : List ℝ :=
  (x.zip y).map (fun p => Real.sqrt ((p.1 - xa) ^ 2 + (p.2 - ya) ^ 2))

/-- A list is nonconstant when it holds two different values. -/
def nonconstant (l : List ℝ) : Prop := ∃ a ∈ l, ∃ b ∈ l, a ≠ b

/-- The distance-elevation pairs of the control points with respect to a
candidate apex, in input order; used to analyze `radius`. -/
noncomputable def pairList (x y z : List ℝ) (xa ya : ℝ) : List (ℝ × ℝ) :=
  (x.zip (y.zip z)).map
    (fun t => (Real.sqrt ((t.1 - xa) ^ 2 + (t.2.1 - ya) ^ 2), t.2.2))

/-- Model of `scipy.stats.rankdata` with its default `average` method, which is
what `spearmanr` applies to each input: the rank of a value `v` in `a` is the
average of the one-based positions `v` would occupy in sorted order, namely
`((count of entries < v) + (count of entries ≤ v) + 1) / 2`. -/
noncomputable def rankValue (a : List ℝ) (v : ℝ) : ℝ :=
  ((a.countP (fun w => decide (w < v)) : ℝ) +
    (a.countP (fun w => decide (w ≤ v)) : ℝ) + 1) / 2

/-- The list of average ranks of the entries of `a`. -/
noncomputable def rankdata (a : List ℝ) : List ℝ := a.map (rankValue a)

noncomputable def mean (a : List ℝ) : ℝ := a.sum / a.length

/-- Model of the Pearson correlation coefficient used by `spearmanr` on the
rank vectors: centered cross sum over the product of the centered norms (the
sample-size normalizations cancel between numerator and denominator). -/
noncomputable def pearson (a b : List ℝ) : ℝ :=
  ((a.zip b).map (fun p => (p.1 - mean a) * (p.2 - mean b))).sum /
    (Real.sqrt ((a.map (fun v => (v - mean a) ^ 2)).sum) *
      Real.sqrt ((b.map (fun v => (v - mean b) ^ 2)).sum))

/-- Model of `scipy.stats.spearmanr`: the pair of the Spearman coefficient
(Pearson correlation of the average ranks) and the p-value.  The p-value is an
abstract parameter: the program discards it, and every theorem below holds for
every choice of it. -/
noncomputable def spearmanr (pval : List ℝ → List ℝ → ℝ) (a b : List ℝ) :
    ℝ × ℝ :=
  (pearson (rankdata a) (rankdata b), pval a b)

/-- Embedding of the source function `errorSpearman`:

  rho, pval = spearmanr(r,z_sorted)
  return rho
-/
noncomputable def errorSpearman (pval : List ℝ → List ℝ → ℝ)
    (r z_sorted : List ℝ) : ℝ :=
  (spearmanr pval r z_sorted).1

/-- Evaluation of a polynomial given by its coefficient list, constant term
first. -/
noncomputable def polyEval (c : List ℝ) (t : ℝ) : ℝ :=
  ((List.range c.length).map (fun k => c.getD k 0 * t ^ k)).sum

/-- Modelled from the documented behavior of the least-squares solver inside
`numpy.polyfit`: the minimal achievable sum of squared residuals over all
coefficient vectors of the requested degree. -/
noncomputable def lstsqSSR (deg : ℕ) (r z : List ℝ) : ℝ :=
  sInf { s : ℝ | ∃ c : List ℝ, c.length = deg + 1 ∧
    s = ((r.zip z).map (fun p => (p.2 - polyEval c p.1) ^ 2)).sum }

/-- Model of the residuals component of `numpy.polyfit(x, y, deg, full=True)`:
`polyfit` raises (here `none`) on an empty or length-mismatched input; the
least-squares solver reports the sum of squared residuals as a one-element
array only in the strictly overdetermined full-rank case (more points than
coefficients, and at least `deg + 1` distinct abscissae — numerical rank is
idealized as exact rank), and an empty array otherwise. -/
noncomputable def polyfit_residuals (r z : List ℝ) (deg : ℕ) :
    Option (List ℝ) :=
  if r.length = 0 ∨ z.length ≠ r.length then none
  else if deg + 1 < r.length ∧ deg + 1 ≤ r.dedup.length then
    some [lstsqSSR deg r z]
  else some []

/-- Embedding of the source function `errorPolynome`:

  p, residuals, rank, singular_values, rcond = np.polyfit(r,z_sorted,deg,full = True)
  return residuals
-/
noncomputable def errorPolynome (r z_sorted : List ℝ) (deg : ℕ := 1) :
    Option (List ℝ) :=
  polyfit_residuals r z_sorted deg

/-- The result dictionary of `conecone_CenterProfile`, with the keys of the
source dictionary as fields. -/
structure CenterProfileResult where
  BestCenter_LR_xy : ℝ × ℝ
  RadiusModel_controlPoint_LR : List ℝ
  Elevation_controlPoint_LR : List ℝ
  BestCenter_Sp_xy : ℝ × ℝ
  RadiusModel_controlPoint_Sp : List ℝ
  Elevation_controlPoint_Sp : List ℝ

/-- Embedding of the inner function `to_be_minimizedP1`: the linear-fit
objective, as a function of the apex coordinate pair.  It fails (`none`)
exactly when its `radius` or `errorPolynome` call would raise. -/
noncomputable def to_be_minimizedP1 (x y z : List ℝ) (apex_coord : ℝ × ℝ) :
    Option (List ℝ) :=
  (radius x y z apex_coord.1 apex_coord.2).bind
    (fun rz => errorPolynome rz.1 rz.2 1)

/-- Embedding of the inner function `to_be_minimizedSp`: the Spearman
objective, as a function of the apex coordinate pair. -/
noncomputable def to_be_minimizedSp (pval : List ℝ → List ℝ → ℝ)
    (x y z : List ℝ) (apex_coord : ℝ × ℝ) : Option ℝ :=
  (radius x y z apex_coord.1 apex_coord.2).map
    (fun rz => errorSpearman pval rz.1 rz.2)

/-- Embedding of the source function `conecone_CenterProfile`.  The
derivative-free minimizer `scipy.optimize.fmin` is an external black box and
is passed in as the two abstract parameters `fminP` and `fminS` (one per
objective type); each is handed the corresponding objective together with the
shared initial guess, exactly as in the source. -/
noncomputable def conecone_CenterProfile
    (fminP : ((ℝ × ℝ) → Option (List ℝ)) → (ℝ × ℝ) → (ℝ × ℝ))
    (fminS : ((ℝ × ℝ) → Option ℝ) → (ℝ × ℝ) → (ℝ × ℝ))
    (pval : List ℝ → List ℝ → ℝ)
    (control_xUTM_m control_yUTM_m control_z_m : List ℝ)
    (x_center_guess y_center_guess : ℝ) : Option CenterProfileResult :=
  let BestCenter_P1 :=
    fminP (to_be_minimizedP1 control_xUTM_m control_yUTM_m control_z_m)
      (x_center_guess, y_center_guess)
  let BestCenter_Sp :=
    fminS (to_be_minimizedSp pval control_xUTM_m control_yUTM_m control_z_m)
      (x_center_guess, y_center_guess)
  match radius control_xUTM_m control_yUTM_m control_z_m
          BestCenter_P1.1 BestCenter_P1.2,
        radius control_xUTM_m control_yUTM_m control_z_m
          BestCenter_Sp.1 BestCenter_Sp.2 with
  | some rzP1, some rzSp =>
      some ⟨BestCenter_P1, rzP1.1, rzP1.2, BestCenter_Sp, rzSp.1, rzSp.2⟩
  | _, _ => none

end ConeCone

namespace ConeCone

theorem argsort_perm (r : List ℝ) : (argsort r).Perm (List.range r.length) :=
  List.perm_insertionSort _ _

theorem argsort_sorted (r : List ℝ) :
    (argsort r).Sorted (fun i j => r.getD i 0 ≤ r.getD j 0) := by
  have : IsTotal ℕ (fun i j => r.getD i 0 ≤ r.getD j 0) :=
    ⟨fun a b => le_total _ _⟩
  have : IsTrans ℕ (fun i j => r.getD i 0 ≤ r.getD j 0) :=
    ⟨fun a b c hab hbc => le_trans hab hbc⟩
  exact List.sorted_insertionSort _ _

theorem argsort_mem_lt (r : List ℝ) {i : ℕ} (hi : i ∈ argsort r) :
    i < r.length := by
  have := (argsort_perm r).mem_iff.mp hi
  simpa using this

theorem dists_length {x y : List ℝ} (hxy : x.length = y.length) (xa ya : ℝ) :
    (dists x y xa ya).length = x.length := by
  simp [dists, hxy]

/-- Unfolding of `radius` in the in-range case: equal-length coordinate lists
and an elevation list at least as long. -/
theorem radius_eq_some {x y z : List ℝ} (hxy : x.length = y.length)
    (hz : x.length ≤ z.length) (xa ya : ℝ) :
    radius x y z xa ya =
      some ((argsort (dists x y xa ya)).map (fun i => (dists x y xa ya).getD i 0),
            (argsort (dists x y xa ya)).map (fun i => z.getD i 0)) := by
  unfold radius broadcast2
  rw [if_pos hxy]
  have hguard : ∀ i ∈ argsort (dists x y xa ya), i < z.length := by
    intro i hi
    have := argsort_mem_lt _ hi
    rw [dists_length hxy] at this
    omega
  simp only [dists] at hguard ⊢
  rw [if_pos hguard]

theorem map_getD_range_take {z : List ℝ} {N : ℕ} (h : N ≤ z.length) :
    (List.range N).map (fun i => z.getD i 0) = z.take N := by
  apply List.ext_getElem
  · simpa using h
  · intro i h1 h2
    simp only [List.getElem_map, List.getElem_range, List.getElem_take]
    rw [List.getD_eq_getElem]

theorem map_getD_range_self (z : List ℝ) :
    (List.range z.length).map (fun i => z.getD i 0) = z := by
  rw [map_getD_range_take (le_refl z.length), List.take_length]

theorem dists_getD {x y : List ℝ} (hxy : x.length = y.length) (xa ya : ℝ)
    {i : ℕ} (hi : i < x.length) :
    (dists x y xa ya).getD i 0 =
      Real.sqrt ((x.getD i 0 - xa) ^ 2 + (y.getD i 0 - ya) ^ 2) := by
  have hzip : i < (x.zip y).length := by simp only [List.length_zip]; omega
  have hx : i < x.length := hi
  have hy : i < y.length := by omega
  simp only [dists]
  rw [List.getD_eq_getElem _ _ (by simpa using hzip),
    List.getElem_map, List.getElem_zip,
    List.getD_eq_getElem _ _ hx, List.getD_eq_getElem _ _ hy]

/-- Unfolding of `radius` in the out-of-range case: the elevation list is
strictly shorter than the equal-length coordinate lists. -/
theorem radius_eq_none {x y z : List ℝ} (hxy : x.length = y.length)
    (hz : z.length < x.length) (xa ya : ℝ) :
    radius x y z xa ya = none := by
  unfold radius broadcast2
  rw [if_pos hxy]
  have hguard : ¬ ∀ i ∈ argsort (dists x y xa ya), i < z.length := by
    intro hall
    have hmem : z.length ∈ argsort (dists x y xa ya) := by
      have : z.length ∈ List.range (dists x y xa ya).length := by
        rw [dists_length hxy]
        exact List.mem_range.mpr hz
      exact ((argsort_perm _).mem_iff).mpr this
    exact absurd (hall _ hmem) (lt_irrefl _)
  simp only [dists] at hguard ⊢
  rw [if_neg hguard]

theorem argsort_single (a : ℝ) : argsort [a] = [0] := by
  simp [argsort]

theorem argsort_pair_le {a b : ℝ} (h : a ≤ b) : argsort [a, b] = [0, 1] := by
  unfold argsort
  rw [show List.range ([a, b].length) = [0, 1] from rfl]
  simp only [List.insertionSort, List.orderedInsert, List.getD_cons_zero,
    List.getD_cons_succ]
  rw [if_pos h]

theorem dists_single_zero : dists [0] [0] 0 0 = [0] := by
  simp [dists, Real.sqrt_eq_zero]

/-- C1: for equal-length parallel sequences and any candidate apex, `radius`
returns the list of planar Euclidean distances to the apex sorted in ascending
order, together with the elevation list permuted by the same sorting index
list. -/
theorem radius_sorted_coupled_profile (x y z : List ℝ) (xa ya : ℝ)
    (hxy : x.length = y.length) (hz : z.length = x.length) :
    ∃ idx : List ℕ,
      idx.Perm (List.range x.length) ∧
      radius x y z xa ya =
        some (idx.map (fun i =>
                Real.sqrt ((x.getD i 0 - xa) ^ 2 + (y.getD i 0 - ya) ^ 2)),
              idx.map (fun i => z.getD i 0)) ∧
      (idx.map (fun i =>
        Real.sqrt ((x.getD i 0 - xa) ^ 2 + (y.getD i 0 - ya) ^ 2))).Sorted
          (· ≤ ·) := by
  have hperm : (argsort (dists x y xa ya)).Perm (List.range x.length) := by
    have h := argsort_perm (dists x y xa ya)
    rwa [dists_length hxy] at h
  have hmemlt : ∀ i ∈ argsort (dists x y xa ya), i < x.length := by
    intro i hi
    have h := argsort_mem_lt _ hi
    rwa [dists_length hxy] at h
  have hmapeq : (argsort (dists x y xa ya)).map
        (fun i => (dists x y xa ya).getD i 0) =
      (argsort (dists x y xa ya)).map (fun i =>
        Real.sqrt ((x.getD i 0 - xa) ^ 2 + (y.getD i 0 - ya) ^ 2)) :=
    List.map_congr_left (fun i hi => dists_getD hxy xa ya (hmemlt i hi))
  refine ⟨argsort (dists x y xa ya), hperm, ?_, ?_⟩
  · rw [radius_eq_some hxy hz.ge, hmapeq]
  · rw [← hmapeq]
    exact List.Pairwise.map _ (fun a b hab => hab)
      (argsort_sorted (dists x y xa ya))

theorem radius_sorted_coupled_profile_witness :
    ([0] : List ℝ).length = ([0] : List ℝ).length ∧
    ([1] : List ℝ).length = ([0] : List ℝ).length ∧
    ∃ idx : List ℕ,
      idx.Perm (List.range ([0] : List ℝ).length) ∧
      radius [0] [0] [1] 0 0 =
        some (idx.map (fun i =>
                Real.sqrt ((([0] : List ℝ).getD i 0 - 0) ^ 2 +
                  (([0] : List ℝ).getD i 0 - 0) ^ 2)),
              idx.map (fun i => ([1] : List ℝ).getD i 0)) ∧
      (idx.map (fun i =>
        Real.sqrt ((([0] : List ℝ).getD i 0 - 0) ^ 2 +
          (([0] : List ℝ).getD i 0 - 0) ^ 2))).Sorted (· ≤ ·) :=
  ⟨rfl, rfl, radius_sorted_coupled_profile [0] [0] [1] 0 0 rfl rfl⟩

/-- C8: for equal-length inputs, both output sequences of `radius` have the
input length, and the returned elevation sequence is a permutation of the
input elevation sequence. -/
theorem radius_length_and_perm (x y z : List ℝ) (xa ya : ℝ)
    (hxy : x.length = y.length) (hz : z.length = x.length) :
    ∃ rs zs, radius x y z xa ya = some (rs, zs) ∧
      rs.length = x.length ∧ zs.length = x.length ∧ zs.Perm z := by
  have hperm : (argsort (dists x y xa ya)).Perm (List.range x.length) := by
    have h := argsort_perm (dists x y xa ya)
    rwa [dists_length hxy] at h
  rw [radius_eq_some hxy hz.ge]
  refine ⟨_, _, rfl, ?_, ?_, ?_⟩
  · rw [List.length_map, hperm.length_eq, List.length_range]
  · rw [List.length_map, hperm.length_eq, List.length_range]
  · have h2 := hperm.map (fun i => z.getD i 0)
    rw [show x.length = z.length from hz.symm, map_getD_range_self] at h2
    exact h2

theorem radius_length_and_perm_witness :
    ([0, 3] : List ℝ).length = ([0, 4] : List ℝ).length ∧
    ([5, 7] : List ℝ).length = ([0, 3] : List ℝ).length ∧
    ∃ rs zs, radius [0, 3] [0, 4] [5, 7] 1 2 = some (rs, zs) ∧
      rs.length = ([0, 3] : List ℝ).length ∧
      zs.length = ([0, 3] : List ℝ).length ∧ zs.Perm [5, 7] :=
  ⟨rfl, rfl, radius_length_and_perm [0, 3] [0, 4] [5, 7] 1 2 rfl rfl⟩

/-- C10: when the elevation list is strictly longer than the equal-length
coordinate lists, `radius` succeeds anyway: it returns two sequences of the
coordinate length, and the returned elevations are drawn only from the first
`x.length` entries of `z` (the extra elevations are silently ignored). -/
theorem radius_longer_z_ignored (x y z : List ℝ) (xa ya : ℝ)
    (hxy : x.length = y.length) (hz : x.length < z.length) :
    ∃ rs zs, radius x y z xa ya = some (rs, zs) ∧
      rs.length = x.length ∧ zs.length = x.length ∧
      zs.Perm (z.take x.length) := by
  have hperm : (argsort (dists x y xa ya)).Perm (List.range x.length) := by
    have h := argsort_perm (dists x y xa ya)
    rwa [dists_length hxy] at h
  rw [radius_eq_some hxy hz.le]
  refine ⟨_, _, rfl, ?_, ?_, ?_⟩
  · rw [List.length_map, hperm.length_eq, List.length_range]
  · rw [List.length_map, hperm.length_eq, List.length_range]
  · have h2 := hperm.map (fun i => z.getD i 0)
    rw [map_getD_range_take hz.le] at h2
    exact h2

theorem radius_longer_z_ignored_witness :
    ([0] : List ℝ).length = ([0] : List ℝ).length ∧
    ([0] : List ℝ).length < ([5, 7] : List ℝ).length ∧
    ∃ rs zs, radius [0] [0] [5, 7] 0 0 = some (rs, zs) ∧
      rs.length = ([0] : List ℝ).length ∧
      zs.length = ([0] : List ℝ).length ∧
      zs.Perm (([5, 7] : List ℝ).take ([0] : List ℝ).length) :=
  ⟨rfl, by norm_num,
    radius_longer_z_ignored [0] [0] [5, 7] 0 0 rfl (by norm_num)⟩

/-- C3 counterexample: the length of `z` differs from the lengths of `x` and
`y`, yet `radius` returns a result instead of failing. -/
theorem radius_shape_mismatch_cex :
    ([5, 7] : List ℝ).length ≠ ([0] : List ℝ).length ∧
    radius [0] [0] [5, 7] 0 0 = some ([0], [5]) := by
  constructor
  · norm_num
  · rw [radius_eq_some rfl (by norm_num), dists_single_zero, argsort_single]
    norm_num

/-- C3 amended: for equal-length coordinate lists, `radius` fails exactly when
the elevation list is strictly shorter than the coordinate lists; when the
elevation list is at least as long — in particular strictly longer, so the
three lengths are not all equal — it returns a result. -/
theorem radius_failure_iff (x y z : List ℝ) (xa ya : ℝ)
    (hxy : x.length = y.length) :
    radius x y z xa ya = none ↔ z.length < x.length := by
  constructor
  · intro h
    by_contra hc
    push_neg at hc
    rw [radius_eq_some hxy hc] at h
    exact Option.noConfusion h
  · intro h
    exact radius_eq_none hxy h xa ya

theorem radius_failure_iff_witness :
    ([0] : List ℝ).length = ([0] : List ℝ).length ∧
    (radius [0] [0] [] 0 0 = none ↔
      ([] : List ℝ).length < ([0] : List ℝ).length) :=
  ⟨rfl, radius_failure_iff [0] [0] [] 0 0 rfl⟩

theorem pairList_map_fst {x y z : List ℝ} (hxy : x.length = y.length)
    (hz : z.length = x.length) (xa ya : ℝ) :
    (pairList x y z xa ya).map Prod.fst = dists x y xa ya := by
  apply List.ext_getElem
  · simp only [pairList, dists, List.length_map, List.length_zip]
    omega
  · intro i h1 h2
    simp only [pairList, dists, List.getElem_map, List.getElem_zip]

/-- The pair representation of the output of `radius`: the returned lists are
the two projections of a list of distance-elevation pairs that is a
permutation of the input pair list and is weakly sorted by distance. -/
theorem radius_pairs (x y z : List ℝ) (xa ya : ℝ) (hxy : x.length = y.length)
    (hz : z.length = x.length) :
    ∃ P : List (ℝ × ℝ),
      radius x y z xa ya = some (P.map Prod.fst, P.map Prod.snd) ∧
      P.Perm (pairList x y z xa ya) ∧
      P.Pairwise (fun p q => p.1 ≤ q.1) := by
  refine ⟨(argsort (dists x y xa ya)).map
      (fun i => ((dists x y xa ya).getD i 0, z.getD i 0)), ?_, ?_, ?_⟩
  · rw [radius_eq_some hxy hz.ge, List.map_map, List.map_map]
    rfl
  · have hperm := (argsort_perm (dists x y xa ya)).map
      (fun i => ((dists x y xa ya).getD i 0, z.getD i 0))
    rw [dists_length hxy] at hperm
    refine hperm.trans (List.Perm.of_eq ?_)
    apply List.ext_getElem
    · simp only [pairList, List.length_map, List.length_range, List.length_zip]
      omega
    · intro i h1 h2
      have hx : i < x.length := by simpa using h1
      have hy : i < y.length := by omega
      have hzl : i < z.length := by omega
      simp only [pairList, List.getElem_map, List.getElem_range,
        List.getElem_zip]
      rw [dists_getD hxy xa ya hx, List.getD_eq_getElem _ _ hx,
        List.getD_eq_getElem _ _ hy, List.getD_eq_getElem _ _ hzl]
  · exact List.Pairwise.map _ (fun a b hab => hab)
      (argsort_sorted (dists x y xa ya))

/-- C7 amended: permuting the three input lists by one common permutation
leaves both outputs of `radius` unchanged, provided the computed distances are
pairwise distinct (on tied distances the outputs can differ, see the
counterexample). -/
theorem radius_perm_equivariant (x y z x' y' z' : List ℝ) (xa ya : ℝ)
    (hxy : x.length = y.length) (hz : z.length = x.length)
    (hxy' : x'.length = y'.length) (hz' : z'.length = x'.length)
    (hperm : (x.zip (y.zip z)).Perm (x'.zip (y'.zip z')))
    (hnodup : (dists x y xa ya).Nodup) :
    radius x y z xa ya = radius x' y' z' xa ya := by
  obtain ⟨P, hPeq, hPperm, hPord⟩ := radius_pairs x y z xa ya hxy hz
  obtain ⟨Q, hQeq, hQperm, hQord⟩ := radius_pairs x' y' z' xa ya hxy' hz'
  have hLL : (pairList x y z xa ya).Perm (pairList x' y' z' xa ya) :=
    hperm.map _
  have hPQ : P.Perm Q := hPperm.trans (hLL.trans hQperm.symm)
  have hPfst : (P.map Prod.fst).Nodup := by
    have h1 : (P.map Prod.fst).Perm (dists x y xa ya) := by
      have h := hPperm.map Prod.fst
      rwa [pairList_map_fst hxy hz] at h
    exact h1.symm.nodup hnodup
  have hQfst : (Q.map Prod.fst).Nodup := (hPQ.map Prod.fst).nodup hPfst
  have hPne : P.Pairwise (fun p q : ℝ × ℝ => p.1 ≠ q.1) :=
    List.pairwise_map.mp hPfst
  have hQne : Q.Pairwise (fun p q : ℝ × ℝ => p.1 ≠ q.1) :=
    List.pairwise_map.mp hQfst
  have hPlt : P.Pairwise (fun p q : ℝ × ℝ => p.1 < q.1) :=
    List.Pairwise.imp₂ (fun a b h1 h2 => lt_of_le_of_ne h1 h2) hPord hPne
  have hQlt : Q.Pairwise (fun p q : ℝ × ℝ => p.1 < q.1) :=
    List.Pairwise.imp₂ (fun a b h1 h2 => lt_of_le_of_ne h1 h2) hQord hQne
  haveI : IsAntisymm (ℝ × ℝ) (fun p q => p.1 < q.1) :=
    ⟨fun a b h1 h2 => absurd h2 (lt_asymm h1)⟩
  have hPQeq : P = Q := List.eq_of_perm_of_sorted hPQ hPlt hQlt
  rw [hPeq, hQeq, hPQeq]

theorem sqrt_twenty_five : Real.sqrt 25 = 5 := by
  rw [show (25 : ℝ) = 5 ^ 2 by norm_num, Real.sqrt_sq (by norm_num)]

theorem dists_nodup_witness_eval : dists [0, 3] [0, 4] 0 0 = [0, 5] := by
  simp [dists]
  rw [show (3 : ℝ) ^ 2 + 4 ^ 2 = 25 by norm_num]
  exact sqrt_twenty_five

theorem radius_perm_equivariant_witness :
    ([0, 3] : List ℝ).length = ([0, 4] : List ℝ).length ∧
    ([5, 7] : List ℝ).length = ([0, 3] : List ℝ).length ∧
    ([3, 0] : List ℝ).length = ([4, 0] : List ℝ).length ∧
    ([7, 5] : List ℝ).length = ([3, 0] : List ℝ).length ∧
    (([0, 3] : List ℝ).zip (([0, 4] : List ℝ).zip ([5, 7] : List ℝ))).Perm
      (([3, 0] : List ℝ).zip (([4, 0] : List ℝ).zip ([7, 5] : List ℝ))) ∧
    (dists [0, 3] [0, 4] 0 0).Nodup ∧
    radius [0, 3] [0, 4] [5, 7] 0 0 = radius [3, 0] [4, 0] [7, 5] 0 0 := by
  have hp : (([0, 3] : List ℝ).zip
        (([0, 4] : List ℝ).zip ([5, 7] : List ℝ))).Perm
      (([3, 0] : List ℝ).zip (([4, 0] : List ℝ).zip ([7, 5] : List ℝ))) := by
    simp only [List.zip_cons_cons, List.zip_nil_right]
    exact List.Perm.swap _ _ _
  have hn : (dists [0, 3] [0, 4] 0 0).Nodup := by
    rw [dists_nodup_witness_eval]
    simp
  exact ⟨rfl, rfl, rfl, rfl, hp, hn,
    radius_perm_equivariant [0, 3] [0, 4] [5, 7] [3, 0] [4, 0] [7, 5] 0 0
      rfl rfl rfl rfl hp hn⟩

/-- C7 counterexample: with tied distances, applying the same permutation to
x, y and z changes the returned elevation sequence.  Here both control points
are at distance 1 from the apex; the swapped input yields the swapped
elevation output. -/
theorem radius_perm_equivariance_cex :
    (([0, 1] : List ℝ).zip (([1, 0] : List ℝ).zip ([5, 7] : List ℝ))).Perm
      (([1, 0] : List ℝ).zip (([0, 1] : List ℝ).zip ([7, 5] : List ℝ))) ∧
    radius [0, 1] [1, 0] [5, 7] 0 0 = some ([1, 1], [5, 7]) ∧
    radius [1, 0] [0, 1] [7, 5] 0 0 = some ([1, 1], [7, 5]) ∧
    (([5, 7] : List ℝ) ≠ [7, 5]) := by
  have hd1 : dists [0, 1] [1, 0] 0 0 = [1, 1] := by
    simp [dists]
  have hd2 : dists [1, 0] [0, 1] 0 0 = [1, 1] := by
    simp [dists]
  refine ⟨?_, ?_, ?_, ?_⟩
  · simp only [List.zip_cons_cons, List.zip_nil_right]
    exact List.Perm.swap _ _ _
  · rw [@radius_eq_some [0, 1] [1, 0] [5, 7] (by norm_num) (by norm_num) 0 0,
      hd1, argsort_pair_le le_rfl]
    norm_num
  · rw [@radius_eq_some [1, 0] [0, 1] [7, 5] (by norm_num) (by norm_num) 0 0,
      hd2, argsort_pair_le le_rfl]
    norm_num
  · norm_num

/-- C2: the orchestrator hands each of the two objectives, built over the
original control points, to the minimizer together with the shared initial
guess, recomputes the radius profile at each optimized apex against the
original control points, and returns the record of both apex pairs and both
recomputed profiles.  `fminP` and `fminS` are the abstract minimizer. -/
theorem conecone_CenterProfile_spec
    (fminP : ((ℝ × ℝ) → Option (List ℝ)) → (ℝ × ℝ) → (ℝ × ℝ))
    (fminS : ((ℝ × ℝ) → Option ℝ) → (ℝ × ℝ) → (ℝ × ℝ))
    (pval : List ℝ → List ℝ → ℝ)
    (x y z : List ℝ) (x0 y0 : ℝ)
    (hxy : x.length = y.length) (hz : z.length = x.length) :
    ∃ res : CenterProfileResult,
      conecone_CenterProfile fminP fminS pval x y z x0 y0 = some res ∧
      res.BestCenter_LR_xy = fminP (to_be_minimizedP1 x y z) (x0, y0) ∧
      res.BestCenter_Sp_xy = fminS (to_be_minimizedSp pval x y z) (x0, y0) ∧
      radius x y z res.BestCenter_LR_xy.1 res.BestCenter_LR_xy.2 =
        some (res.RadiusModel_controlPoint_LR,
              res.Elevation_controlPoint_LR) ∧
      radius x y z res.BestCenter_Sp_xy.1 res.BestCenter_Sp_xy.2 =
        some (res.RadiusModel_controlPoint_Sp,
              res.Elevation_controlPoint_Sp) := by
  have hP := radius_eq_some hxy hz.ge
    (fminP (to_be_minimizedP1 x y z) (x0, y0)).1
    (fminP (to_be_minimizedP1 x y z) (x0, y0)).2
  have hS := radius_eq_some hxy hz.ge
    (fminS (to_be_minimizedSp pval x y z) (x0, y0)).1
    (fminS (to_be_minimizedSp pval x y z) (x0, y0)).2
  simp only [conecone_CenterProfile]
  rw [hP, hS]
  exact ⟨_, rfl, rfl, rfl, hP, hS⟩

theorem conecone_CenterProfile_spec_witness :
    ([0] : List ℝ).length = ([0] : List ℝ).length ∧
    ([0] : List ℝ).length = ([0] : List ℝ).length ∧
    ∃ res : CenterProfileResult,
      conecone_CenterProfile (fun _ g => g) (fun _ g => g) (fun _ _ => 0)
          [0] [0] [0] 0 0 = some res ∧
      res.BestCenter_LR_xy =
        (fun (_ : (ℝ × ℝ) → Option (List ℝ)) (g : ℝ × ℝ) => g)
          (to_be_minimizedP1 [0] [0] [0]) (0, 0) ∧
      res.BestCenter_Sp_xy =
        (fun (_ : (ℝ × ℝ) → Option ℝ) (g : ℝ × ℝ) => g)
          (to_be_minimizedSp (fun _ _ => 0) [0] [0] [0]) (0, 0) ∧
      radius [0] [0] [0] res.BestCenter_LR_xy.1 res.BestCenter_LR_xy.2 =
        some (res.RadiusModel_controlPoint_LR,
              res.Elevation_controlPoint_LR) ∧
      radius [0] [0] [0] res.BestCenter_Sp_xy.1 res.BestCenter_Sp_xy.2 =
        some (res.RadiusModel_controlPoint_Sp,
              res.Elevation_controlPoint_Sp) :=
  ⟨rfl, rfl, conecone_CenterProfile_spec (fun _ g => g) (fun _ g => g)
    (fun _ _ => 0) [0] [0] [0] 0 0 rfl rfl⟩

/-- C9: with at most `deg + 1` points, `errorPolynome` either fails or
returns an empty residual list, never a sum-of-squares value. -/
theorem errorPolynome_degenerate (r z : List ℝ) (deg : ℕ)
    (hlen : z.length = r.length) (h : r.length ≤ deg + 1) :
    errorPolynome r z deg = none ∨ errorPolynome r z deg = some [] := by
  unfold errorPolynome polyfit_residuals
  by_cases h0 : r.length = 0
  · left
    rw [if_pos (Or.inl h0)]
  · right
    rw [if_neg (by simp [h0, hlen]), if_neg (fun hc => absurd hc.1 (by omega))]

theorem errorPolynome_degenerate_witness :
    ([3, 4] : List ℝ).length = ([1, 2] : List ℝ).length ∧
    ([1, 2] : List ℝ).length ≤ 1 + 1 ∧
    (errorPolynome [1, 2] [3, 4] 1 = none ∨
      errorPolynome [1, 2] [3, 4] 1 = some []) :=
  ⟨rfl, by norm_num,
    errorPolynome_degenerate [1, 2] [3, 4] 1 rfl (by norm_num)⟩

theorem map_sum_eq_range (l : List ℝ) (f : ℝ → ℝ) :
    (l.map f).sum = ∑ i in Finset.range l.length, f (l.getD i 0) := by
  induction l with
  | nil => simp
  | cons a t ih =>
    rw [List.map_cons, List.sum_cons, ih, List.length_cons,
      Finset.sum_range_succ']
    simp only [List.getD_cons_succ, List.getD_cons_zero]
    ring

theorem list_sum_eq_range (l : List ℝ) :
    l.sum = ∑ i in Finset.range l.length, l.getD i 0 := by
  have h := map_sum_eq_range l id
  rwa [List.map_id] at h

theorem zip_map_sum_eq_range (a b : List ℝ) (f : ℝ × ℝ → ℝ)
    (h : a.length = b.length) :
    ((a.zip b).map f).sum =
      ∑ i in Finset.range a.length, f (a.getD i 0, b.getD i 0) := by
  induction a generalizing b with
  | nil => simp
  | cons x t ih =>
    cases b with
    | nil => simp at h
    | cons y u =>
      rw [List.zip_cons_cons, List.map_cons, List.sum_cons,
        ih u (by simpa using h), List.length_cons, Finset.sum_range_succ']
      simp only [List.getD_cons_succ, List.getD_cons_zero]
      ring

theorem range_sum_sq_dev (n : ℕ) (R : ℕ → ℝ) (m : ℝ) :
    ∑ i in Finset.range n, (R i - m) ^ 2 =
      (∑ i in Finset.range n, R i ^ 2) -
        2 * m * (∑ i in Finset.range n, R i) + n * m ^ 2 := by
  induction n with
  | zero => simp
  | succ k ih =>
    simp only [Finset.sum_range_succ, ih]
    push_cast
    ring

theorem range_sum_sq_affine (n : ℕ) (R Z : ℕ → ℝ) (a b : ℝ) :
    ∑ i in Finset.range n, (Z i - (a * R i + b)) ^ 2 =
      (∑ i in Finset.range n, Z i ^ 2) -
        2 * a * (∑ i in Finset.range n, R i * Z i) -
        2 * b * (∑ i in Finset.range n, Z i) +
        a ^ 2 * (∑ i in Finset.range n, R i ^ 2) +
        2 * a * b * (∑ i in Finset.range n, R i) + n * b ^ 2 := by
  induction n with
  | zero => simp
  | succ k ih =>
    simp only [Finset.sum_range_succ, ih]
    push_cast
    ring

theorem sum_sq_dev_pos {l : List ℝ} (h : nonconstant l) :
    0 < (l.map (fun v => (v - mean l) ^ 2)).sum := by
  obtain ⟨a, ha, b, hb, hab⟩ := h
  have hnonneg : ∀ u ∈ l.map (fun v => (v - mean l) ^ 2), 0 ≤ u := by
    intro u hu
    obtain ⟨v, hv, rfl⟩ := List.mem_map.mp hu
    positivity
  have hne : a ≠ mean l ∨ b ≠ mean l := by
    by_contra hc
    push_neg at hc
    exact hab (hc.1.trans hc.2.symm)
  have key : ∀ c ∈ l, c ≠ mean l →
      0 < (l.map (fun v => (v - mean l) ^ 2)).sum := by
    intro c hc hcne
    have hmem : (c - mean l) ^ 2 ∈ l.map (fun v => (v - mean l) ^ 2) :=
      List.mem_map_of_mem _ hc
    have hpos : 0 < (c - mean l) ^ 2 := by
      have hne0 : (c - mean l) ^ 2 ≠ 0 :=
        pow_ne_zero 2 (sub_ne_zero.mpr hcne)
      exact lt_of_le_of_ne (sq_nonneg _) (Ne.symm hne0)
    exact lt_of_lt_of_le hpos (List.single_le_sum hnonneg _ hmem)
  rcases hne with hne | hne
  · exact key a ha hne
  · exact key b hb hne

theorem nonconstant_length_pos {l : List ℝ} (h : nonconstant l) :
    0 < l.length := by
  obtain ⟨a, ha, _⟩ := h
  exact List.length_pos_of_mem ha

theorem var_scaled_pos {l : List ℝ} (h : nonconstant l) :
    0 < (l.length : ℝ) * (∑ i in Finset.range l.length, l.getD i 0 ^ 2) -
      (∑ i in Finset.range l.length, l.getD i 0) ^ 2 := by
  have h1 := sum_sq_dev_pos h
  rw [map_sum_eq_range, range_sum_sq_dev] at h1
  have hn : (0 : ℝ) < l.length := by
    exact_mod_cast nonconstant_length_pos h
  have hm : mean l = (∑ i in Finset.range l.length, l.getD i 0) / l.length := by
    rw [mean, list_sum_eq_range]
  rw [hm] at h1
  have h2 := mul_pos hn h1
  have h3 : (l.length : ℝ) *
      ((∑ i in Finset.range l.length, l.getD i 0 ^ 2) -
        2 * ((∑ i in Finset.range l.length, l.getD i 0) / l.length) *
          (∑ i in Finset.range l.length, l.getD i 0) +
        l.length * ((∑ i in Finset.range l.length, l.getD i 0) / l.length) ^ 2)
      = (l.length : ℝ) * (∑ i in Finset.range l.length, l.getD i 0 ^ 2) -
        (∑ i in Finset.range l.length, l.getD i 0) ^ 2 := by
    field_simp
    ring
  rwa [h3] at h2

theorem two_le_dedup_of_nonconstant {l : List ℝ} (h : nonconstant l) :
    2 ≤ l.dedup.length := by
  obtain ⟨a, ha, b, hb, hab⟩ := h
  have ha2 : a ∈ l.dedup := List.mem_dedup.mpr ha
  have hb2 : b ∈ l.dedup := List.mem_dedup.mpr hb
  by_contra hc
  push_neg at hc
  cases hl : l.dedup with
  | nil =>
    rw [hl] at ha2
    exact absurd ha2 (List.not_mem_nil a)
  | cons x t =>
    cases t with
    | nil =>
      rw [hl] at ha2 hb2
      have hax : a = x := by simpa using ha2
      have hbx : b = x := by simpa using hb2
      exact hab (hax.trans hbx.symm)
    | cons w u =>
      rw [hl] at hc
      simp only [List.length_cons] at hc
      omega

theorem polyEval_pair (p q t : ℝ) : polyEval [p, q] t = p + q * t := by
  simp [polyEval, List.range_succ]

/-- Minimization of the quadratic objective of a degree-1 least-squares fit,
expressed through the six moment sums. -/
theorem lsq_quadratic_min (n s1 s2 sz srz szz : ℝ) (Q : ℝ → ℝ → ℝ)
    (hQ : ∀ a b, Q a b =
      szz - 2 * a * srz - 2 * b * sz + a ^ 2 * s2 + 2 * a * b * s1 + n * b ^ 2)
    (hn : 0 < n) (hd : 0 < n * s2 - s1 ^ 2) :
    ∃ ahat bhat : ℝ, ∀ a b : ℝ, Q ahat bhat ≤ Q a b := by
  refine ⟨(n * srz - s1 * sz) / (n * s2 - s1 ^ 2),
    (sz - ((n * srz - s1 * sz) / (n * s2 - s1 ^ 2)) * s1) / n, ?_⟩
  intro a b
  rw [hQ, hQ]
  have hdne : n * s2 - s1 ^ 2 ≠ 0 := ne_of_gt hd
  have hnne : n ≠ 0 := ne_of_gt hn
  rw [← sub_nonneg]
  have key :
      (szz - 2 * a * srz - 2 * b * sz + a ^ 2 * s2 + 2 * a * b * s1 +
          n * b ^ 2) -
        (szz - 2 * ((n * srz - s1 * sz) / (n * s2 - s1 ^ 2)) * srz -
          2 * ((sz - ((n * srz - s1 * sz) / (n * s2 - s1 ^ 2)) * s1) / n) * sz +
          ((n * srz - s1 * sz) / (n * s2 - s1 ^ 2)) ^ 2 * s2 +
          2 * ((n * srz - s1 * sz) / (n * s2 - s1 ^ 2)) *
            ((sz - ((n * srz - s1 * sz) / (n * s2 - s1 ^ 2)) * s1) / n) * s1 +
          n * ((sz - ((n * srz - s1 * sz) / (n * s2 - s1 ^ 2)) * s1) / n) ^ 2) =
      ((n * s2 - s1 ^ 2) * (n * b + a * s1 - sz) ^ 2 +
        (a * (n * s2 - s1 ^ 2) - (n * srz - s1 * sz)) ^ 2) /
        (n * (n * s2 - s1 ^ 2)) := by
    field_simp
    ring
  rw [key]
  exact div_nonneg
    (add_nonneg (mul_nonneg hd.le (sq_nonneg _)) (sq_nonneg _))
    (mul_pos hn hd).le

theorem zip_sq_affine_sum (r z : List ℝ) (h : r.length = z.length)
    (a b : ℝ) :
    ((r.zip z).map (fun p => (p.2 - (a * p.1 + b)) ^ 2)).sum =
      (∑ i in Finset.range r.length, z.getD i 0 ^ 2) -
      2 * a * (∑ i in Finset.range r.length, r.getD i 0 * z.getD i 0) -
      2 * b * (∑ i in Finset.range r.length, z.getD i 0) +
      a ^ 2 * (∑ i in Finset.range r.length, r.getD i 0 ^ 2) +
      2 * a * b * (∑ i in Finset.range r.length, r.getD i 0) +
      r.length * b ^ 2 := by
  rw [zip_map_sum_eq_range r z _ h]
  exact range_sum_sq_affine r.length (fun i => r.getD i 0)
    (fun i => z.getD i 0) a b

/-- C5: for more than two points with nonconstant abscissae, `errorPolynome`
with degree 1 returns a one-element list holding the sum of squared residuals
of a least-squares line fit: the value is attained by some slope and
intercept and is minimal over all slopes and intercepts. -/
theorem errorPolynome_least_squares (r z : List ℝ)
    (hlen : z.length = r.length) (hN : 2 < r.length) (hnc : nonconstant r) :
    ∃ s : ℝ, errorPolynome r z 1 = some [s] ∧
      ∃ a b : ℝ,
        s = ((r.zip z).map (fun p => (p.2 - (a * p.1 + b)) ^ 2)).sum ∧
        ∀ a2 b2 : ℝ,
          s ≤ ((r.zip z).map (fun p => (p.2 - (a2 * p.1 + b2)) ^ 2)).sum := by
  have hguard : errorPolynome r z 1 = some [lstsqSSR 1 r z] := by
    unfold errorPolynome polyfit_residuals
    rw [if_neg, if_pos]
    · refine ⟨by omega, ?_⟩
      have h2 := two_le_dedup_of_nonconstant hnc
      omega
    · push_neg
      exact ⟨by omega, hlen⟩
  have hmapQ : ∀ p q : ℝ,
      ((r.zip z).map (fun pr => (pr.2 - polyEval [p, q] pr.1) ^ 2)).sum =
        ((r.zip z).map (fun pr => (pr.2 - (q * pr.1 + p)) ^ 2)).sum := by
    intro p q
    apply congrArg List.sum
    apply List.map_congr_left
    intro pr _
    rw [polyEval_pair]
    ring_nf
  obtain ⟨ah, bh, hopt⟩ := lsq_quadratic_min (r.length : ℝ)
    (∑ i in Finset.range r.length, r.getD i 0)
    (∑ i in Finset.range r.length, r.getD i 0 ^ 2)
    (∑ i in Finset.range r.length, z.getD i 0)
    (∑ i in Finset.range r.length, r.getD i 0 * z.getD i 0)
    (∑ i in Finset.range r.length, z.getD i 0 ^ 2)
    (fun a b => ((r.zip z).map (fun p => (p.2 - (a * p.1 + b)) ^ 2)).sum)
    (fun a b => zip_sq_affine_sum r z hlen.symm a b)
    (by exact_mod_cast (by omega : 0 < r.length))
    (var_scaled_pos hnc)
  have hmem : ((r.zip z).map (fun p => (p.2 - (ah * p.1 + bh)) ^ 2)).sum ∈
      {s : ℝ | ∃ c : List ℝ, c.length = 1 + 1 ∧
        s = ((r.zip z).map (fun p => (p.2 - polyEval c p.1) ^ 2)).sum} :=
    ⟨[bh, ah], rfl, (hmapQ bh ah).symm⟩
  have hlb : ∀ s ∈ {s : ℝ | ∃ c : List ℝ, c.length = 1 + 1 ∧
      s = ((r.zip z).map (fun p => (p.2 - polyEval c p.1) ^ 2)).sum},
      ((r.zip z).map (fun p => (p.2 - (ah * p.1 + bh)) ^ 2)).sum ≤ s := by
    rintro s ⟨c, hc, rfl⟩
    obtain ⟨p, q, rfl⟩ := List.length_eq_two.mp (by omega : c.length = 2)
    rw [hmapQ p q]
    exact hopt q p
  have hval : lstsqSSR 1 r z =
      ((r.zip z).map (fun p => (p.2 - (ah * p.1 + bh)) ^ 2)).sum := by
    unfold lstsqSSR
    exact le_antisymm (csInf_le ⟨_, hlb⟩ hmem) (le_csInf ⟨_, hmem⟩ hlb)
  refine ⟨lstsqSSR 1 r z, hguard, ah, bh, hval, ?_⟩
  intro a2 b2
  rw [hval]
  exact hopt a2 b2

theorem errorPolynome_least_squares_witness :
    ([0, 0, 1] : List ℝ).length = ([0, 1, 2] : List ℝ).length ∧
    2 < ([0, 1, 2] : List ℝ).length ∧
    nonconstant [0, 1, 2] ∧
    ∃ s : ℝ, errorPolynome [0, 1, 2] [0, 0, 1] 1 = some [s] ∧
      ∃ a b : ℝ,
        s = ((([0, 1, 2] : List ℝ).zip ([0, 0, 1] : List ℝ)).map
              (fun p => (p.2 - (a * p.1 + b)) ^ 2)).sum ∧
        ∀ a2 b2 : ℝ,
          s ≤ ((([0, 1, 2] : List ℝ).zip ([0, 0, 1] : List ℝ)).map
              (fun p => (p.2 - (a2 * p.1 + b2)) ^ 2)).sum := by
  have hnc : nonconstant [0, 1, 2] :=
    ⟨0, by norm_num, 1, by norm_num, by norm_num⟩
  exact ⟨rfl, by norm_num, hnc,
    errorPolynome_least_squares [0, 1, 2] [0, 0, 1] rfl (by norm_num) hnc⟩

theorem countP_lt_of_witness (l : List ℝ) (p q : ℝ → Bool)
    (hpq : ∀ x ∈ l, p x = true → q x = true) (w : ℝ) (hw : w ∈ l)
    (hqw : q w = true) (hpw : ¬ p w = true) :
    l.countP p < l.countP q := by
  induction l with
  | nil => exact absurd hw (List.not_mem_nil w)
  | cons x t ih =>
    rw [List.countP_cons, List.countP_cons]
    rcases List.mem_cons.mp hw with rfl | hwt
    · have hmono : t.countP p ≤ t.countP q :=
        List.countP_mono_left
          (fun a ha hpa => hpq a (List.mem_cons_of_mem _ ha) hpa)
      rw [if_neg hpw, if_pos hqw]
      omega
    · have hx : (if p x = true then 1 else 0) ≤
          (if q x = true then 1 else 0) := by
        by_cases hpx : p x = true
        · rw [if_pos hpx, if_pos (hpq x (List.mem_cons_self x t) hpx)]
        · rw [if_neg hpx]
          split <;> omega
      have ht := ih (fun a ha hpa => hpq a (List.mem_cons_of_mem _ ha) hpa) hwt
      omega

theorem rankValue_lt_of_lt (a : List ℝ) {u w : ℝ} (hw : w ∈ a)
    (huw : u < w) : rankValue a u < rankValue a w := by
  have h1 : a.countP (fun v => decide (v < u)) ≤
      a.countP (fun v => decide (v < w)) :=
    List.countP_mono_left (fun v hv h => by
      rw [decide_eq_true_eq] at h ⊢
      exact lt_trans h huw)
  have h2 : a.countP (fun v => decide (v ≤ u)) <
      a.countP (fun v => decide (v ≤ w)) := by
    apply countP_lt_of_witness a _ _ ?_ w hw ?_ ?_
    · intro v hv h
      rw [decide_eq_true_eq] at h ⊢
      exact le_trans h huw.le
    · rw [decide_eq_true_eq]
    · rw [decide_eq_true_eq]
      exact not_le.mpr huw
  unfold rankValue
  have hlt : (a.countP (fun v => decide (v < u)) : ℝ) +
      (a.countP (fun v => decide (v ≤ u)) : ℝ) + 1 <
      (a.countP (fun v => decide (v < w)) : ℝ) +
      (a.countP (fun v => decide (v ≤ w)) : ℝ) + 1 := by
    exact_mod_cast Nat.add_lt_add_right (add_lt_add_of_le_of_lt h1 h2) 1
  linarith

theorem rankdata_nonconstant {a : List ℝ} (h : nonconstant a) :
    nonconstant (rankdata a) := by
  obtain ⟨u, hu, w, hw, huw⟩ := h
  rcases lt_or_gt_of_ne huw with hlt | hgt
  · exact ⟨rankValue a u, List.mem_map_of_mem _ hu, rankValue a w,
      List.mem_map_of_mem _ hw, ne_of_lt (rankValue_lt_of_lt a hw hlt)⟩
  · exact ⟨rankValue a u, List.mem_map_of_mem _ hu, rankValue a w,
      List.mem_map_of_mem _ hw, ne_of_gt (rankValue_lt_of_lt a hu hgt)⟩

/-- The Pearson coefficient of two equal-length nonconstant lists lies in
`[-1, 1]` (Cauchy-Schwarz). -/
theorem pearson_bounds (a b : List ℝ) (hlen : a.length = b.length)
    (ha : nonconstant a) (hb : nonconstant b) :
    -1 ≤ pearson a b ∧ pearson a b ≤ 1 := by
  have hsa := sum_sq_dev_pos ha
  have hsb := sum_sq_dev_pos hb
  have hcs : (((a.zip b).map
        (fun p => (p.1 - mean a) * (p.2 - mean b))).sum) ^ 2 ≤
      ((a.map (fun v => (v - mean a) ^ 2)).sum) *
      ((b.map (fun v => (v - mean b) ^ 2)).sum) := by
    rw [zip_map_sum_eq_range a b _ hlen, map_sum_eq_range, map_sum_eq_range,
      ← hlen]
    exact Finset.sum_mul_sq_le_sq_mul_sq (Finset.range a.length)
      (fun i => a.getD i 0 - mean a) (fun i => b.getD i 0 - mean b)
  have hd : 0 < Real.sqrt ((a.map (fun v => (v - mean a) ^ 2)).sum) *
      Real.sqrt ((b.map (fun v => (v - mean b) ^ 2)).sum) :=
    mul_pos (Real.sqrt_pos.mpr hsa) (Real.sqrt_pos.mpr hsb)
  have habs : |((a.zip b).map
        (fun p => (p.1 - mean a) * (p.2 - mean b))).sum| ≤
      Real.sqrt ((a.map (fun v => (v - mean a) ^ 2)).sum) *
      Real.sqrt ((b.map (fun v => (v - mean b) ^ 2)).sum) := by
    rw [← Real.sqrt_sq_eq_abs, ← Real.sqrt_mul hsa.le]
    exact Real.sqrt_le_sqrt hcs
  have hone : |pearson a b| ≤ 1 := by
    rw [pearson, abs_div, abs_of_pos hd]
    exact (div_le_one hd).mpr habs
  exact abs_le.mp hone

/-- C4: `errorSpearman` returns exactly the Spearman coefficient (the Pearson
correlation of the average ranks of the two lists), a scalar lying in
`[-1, 1]`, and discards the p-value (the result does not depend on the
p-value component `pval`). -/
theorem errorSpearman_is_rho_in_range (pval : List ℝ → List ℝ → ℝ)
    (r z : List ℝ) (hlen : r.length = z.length) (_hN : 2 ≤ r.length)
    (hr : nonconstant r) (hz : nonconstant z) :
    errorSpearman pval r z = pearson (rankdata r) (rankdata z) ∧
    -1 ≤ errorSpearman pval r z ∧ errorSpearman pval r z ≤ 1 := by
  have hrank_len : (rankdata r).length = (rankdata z).length := by
    simp [rankdata, hlen]
  have hbnd := pearson_bounds (rankdata r) (rankdata z) hrank_len
    (rankdata_nonconstant hr) (rankdata_nonconstant hz)
  exact ⟨rfl, hbnd.1, hbnd.2⟩

theorem errorSpearman_is_rho_in_range_witness :
    ([1, 2] : List ℝ).length = ([3, 1] : List ℝ).length ∧
    2 ≤ ([1, 2] : List ℝ).length ∧
    nonconstant [1, 2] ∧ nonconstant [3, 1] ∧
    (errorSpearman (fun _ _ => 0) [1, 2] [3, 1] =
        pearson (rankdata [1, 2]) (rankdata [3, 1]) ∧
      -1 ≤ errorSpearman (fun _ _ => 0) [1, 2] [3, 1] ∧
      errorSpearman (fun _ _ => 0) [1, 2] [3, 1] ≤ 1) := by
  have hr : nonconstant [1, 2] := ⟨1, by norm_num, 2, by norm_num, by norm_num⟩
  have hz : nonconstant [3, 1] := ⟨3, by norm_num, 1, by norm_num, by norm_num⟩
  exact ⟨rfl, by norm_num, hr, hz,
    errorSpearman_is_rho_in_range (fun _ _ => 0) [1, 2] [3, 1] rfl
      (by norm_num) hr hz⟩

theorem nonconstant_of_perm {l m : List ℝ} (hperm : l.Perm m)
    (h : nonconstant l) : nonconstant m := by
  obtain ⟨a, ha, b, hb, hab⟩ := h
  exact ⟨a, hperm.mem_iff.mp ha, b, hperm.mem_iff.mp hb, hab⟩

theorem countP_le_add_gt (l : List ℝ) (u : ℝ) :
    l.countP (fun t => decide (t ≤ u)) + l.countP (fun t => decide (u < t)) =
      l.length := by
  induction l with
  | nil => rfl
  | cons x t ih =>
    rw [List.countP_cons, List.countP_cons, List.length_cons]
    by_cases h : x ≤ u
    · rw [if_pos (decide_eq_true h),
        if_neg (by simp only [decide_eq_true_eq]; exact not_lt.mpr h)]
      omega
    · rw [if_neg (by simp only [decide_eq_true_eq]; exact h),
        if_pos (decide_eq_true (not_le.mp h))]
      omega

theorem countP_lt_add_ge (l : List ℝ) (u : ℝ) :
    l.countP (fun t => decide (t < u)) + l.countP (fun t => decide (u ≤ t)) =
      l.length := by
  induction l with
  | nil => rfl
  | cons x t ih =>
    rw [List.countP_cons, List.countP_cons, List.length_cons]
    by_cases h : x < u
    · rw [if_pos (decide_eq_true h),
        if_neg (by simp only [decide_eq_true_eq]; exact not_le.mpr h)]
      omega
    · rw [if_neg (by simp only [decide_eq_true_eq]; exact h),
        if_pos (decide_eq_true (not_lt.mp h))]
      omega

theorem rankValue_map_affine_neg (l : List ℝ) (A k : ℝ) (hk : 0 < k)
    (u : ℝ) :
    rankValue (l.map (fun t => A - k * t)) (A - k * u) =
      (l.length : ℝ) + 1 - rankValue l u := by
  have hlt : (l.map (fun t => A - k * t)).countP
      (fun v => decide (v < A - k * u)) =
      l.countP (fun t => decide (u < t)) := by
    rw [List.countP_map]
    apply List.countP_congr
    intro t ht
    simp only [Function.comp, decide_eq_true_eq]
    constructor
    · intro h
      by_contra hc
      push_neg at hc
      nlinarith
    · intro h
      nlinarith
  have hle : (l.map (fun t => A - k * t)).countP
      (fun v => decide (v ≤ A - k * u)) =
      l.countP (fun t => decide (u ≤ t)) := by
    rw [List.countP_map]
    apply List.countP_congr
    intro t ht
    simp only [Function.comp, decide_eq_true_eq]
    constructor
    · intro h
      nlinarith
    · intro h
      nlinarith
  have h1 := countP_le_add_gt l u
  have h2 := countP_lt_add_ge l u
  unfold rankValue
  rw [hlt, hle]
  have c1 : (l.countP (fun t => decide (u < t)) : ℝ) =
      (l.length : ℝ) - (l.countP (fun t => decide (t ≤ u)) : ℝ) := by
    have := congrArg (fun n : ℕ => (n : ℝ)) h1
    push_cast at this
    linarith
  have c2 : (l.countP (fun t => decide (u ≤ t)) : ℝ) =
      (l.length : ℝ) - (l.countP (fun t => decide (t < u)) : ℝ) := by
    have := congrArg (fun n : ℕ => (n : ℝ)) h2
    push_cast at this
    linarith
  rw [c1, c2]
  ring

theorem rankdata_map_affine_neg (l : List ℝ) (A k : ℝ) (hk : 0 < k) :
    rankdata (l.map (fun t => A - k * t)) =
      (rankdata l).map (fun t => (l.length : ℝ) + 1 - t) := by
  unfold rankdata
  rw [List.map_map, List.map_map]
  apply List.map_congr_left
  intro u hu
  simp only [Function.comp]
  exact rankValue_map_affine_neg l A k hk u

theorem sum_map_const_sub (c : ℝ) (l : List ℝ) :
    (l.map (fun t => c - t)).sum = l.length * c - l.sum := by
  induction l with
  | nil => simp
  | cons x t ih =>
    rw [List.map_cons, List.sum_cons, ih, List.length_cons, List.sum_cons]
    push_cast
    ring

theorem mean_map_const_sub (c : ℝ) (l : List ℝ) (h : 0 < l.length) :
    mean (l.map (fun t => c - t)) = c - mean l := by
  have hne : (l.length : ℝ) ≠ 0 := by
    exact_mod_cast Nat.pos_iff_ne_zero.mp h
  rw [mean, mean, sum_map_const_sub, List.length_map]
  field_simp
  ring

/-- The Pearson coefficient of a nonconstant list against its pointwise
reflection `t ↦ c - t` is exactly `-1`. -/
theorem pearson_neg_affine (a : List ℝ) (c : ℝ) (ha : nonconstant a) :
    pearson a (a.map (fun t => c - t)) = -1 := by
  have hlen : 0 < a.length := nonconstant_length_pos ha
  have hm : mean (a.map (fun t => c - t)) = c - mean a :=
    mean_map_const_sub c a hlen
  have hzip : a.zip (a.map (fun t => c - t)) = a.map (fun t => (t, c - t)) := by
    have h := List.zip_map' id (fun t => c - t) a
    rw [List.map_id] at h
    simpa using h
  have hsa := sum_sq_dev_pos ha
  have hcov : ((a.zip (a.map (fun t => c - t))).map
      (fun p => (p.1 - mean a) *
        (p.2 - mean (a.map (fun t => c - t))))).sum =
      -(a.map (fun v => (v - mean a) ^ 2)).sum := by
    rw [hzip, List.map_map, hm, map_sum_eq_range, map_sum_eq_range,
      ← Finset.sum_neg_distrib]
    apply Finset.sum_congr rfl
    intro i _
    simp only [Function.comp]
    ring
  have hsb : ((a.map (fun t => c - t)).map
      (fun v => (v - mean (a.map (fun t => c - t))) ^ 2)).sum =
      (a.map (fun v => (v - mean a) ^ 2)).sum := by
    rw [List.map_map, hm, map_sum_eq_range, map_sum_eq_range]
    apply Finset.sum_congr rfl
    intro i _
    simp only [Function.comp]
    ring
  rw [pearson, hcov, hsb, Real.mul_self_sqrt hsa.le, neg_div,
    div_self (ne_of_gt hsa)]

/-- The statable fragment of the perfect-cone property: when every elevation
satisfies `z_i = A - k * distance_i` to the apex with `k > 0`, the linear-fit
objective evaluates at the true apex to a zero residual and the Spearman
objective evaluates there to exactly `-1`.  (The convergence half of the
property concerns the external scipy minimizer and lies outside this
embedding.) -/
theorem cone_objectives_at_true_apex
    (pval : List ℝ → List ℝ → ℝ) (x y z : List ℝ) (xa ya A k : ℝ)
    (hxy : x.length = y.length) (hz : z.length = x.length) (hk : 0 < k)
    (hcone : ∀ i < x.length, z.getD i 0 =
      A - k * Real.sqrt ((x.getD i 0 - xa) ^ 2 + (y.getD i 0 - ya) ^ 2))
    (hN : 2 < x.length) (hnc : nonconstant (dists x y xa ya)) :
    to_be_minimizedP1 x y z (xa, ya) = some [0] ∧
    to_be_minimizedSp pval x y z (xa, ya) = some (-1) := by
  obtain ⟨P, hPeq, hPperm, hPord⟩ := radius_pairs x y z xa ya hxy hz
  have hpair : ∀ p ∈ pairList x y z xa ya, p.2 = A - k * p.1 := by
    intro p hp
    obtain ⟨t, ht, rfl⟩ := List.mem_map.mp hp
    obtain ⟨i, hi, rfl⟩ := List.mem_iff_getElem.mp ht
    have hix : i < x.length := by
      simp only [List.length_zip] at hi
      omega
    have hiy : i < y.length := by
      simp only [List.length_zip] at hi
      omega
    have hiz : i < z.length := by
      simp only [List.length_zip] at hi
      omega
    have hc := hcone i hix
    rw [List.getD_eq_getElem _ _ hix, List.getD_eq_getElem _ _ hiy,
      List.getD_eq_getElem _ _ hiz] at hc
    rw [List.getElem_zip, List.getElem_zip]
    exact hc
  have hPrel : ∀ p ∈ P, p.2 = A - k * p.1 := fun p hp =>
    hpair p (hPperm.mem_iff.mp hp)
  have hzs : P.map Prod.snd = (P.map Prod.fst).map (fun t => A - k * t) := by
    rw [List.map_map]
    apply List.map_congr_left
    intro p hp
    exact hPrel p hp
  have hfst_perm : (P.map Prod.fst).Perm (dists x y xa ya) := by
    have h := hPperm.map Prod.fst
    rwa [pairList_map_fst hxy hz] at h
  have hrs_nc : nonconstant (P.map Prod.fst) :=
    nonconstant_of_perm hfst_perm.symm hnc
  have hrs_len : (P.map Prod.fst).length = x.length := by
    rw [hfst_perm.length_eq, dists_length hxy]
  have hzip2 : (P.map Prod.fst).zip (P.map Prod.snd) = P := by
    rw [List.zip_map' Prod.fst Prod.snd P]
    have hid : (fun p : ℝ × ℝ => (p.1, p.2)) = id := by
      funext p
      rw [id]
    rw [hid, List.map_id]
  have hP1 : errorPolynome (P.map Prod.fst) (P.map Prod.snd) 1 = some [0] := by
    have hguard : errorPolynome (P.map Prod.fst) (P.map Prod.snd) 1 =
        some [lstsqSSR 1 (P.map Prod.fst) (P.map Prod.snd)] := by
      unfold errorPolynome polyfit_residuals
      rw [if_neg, if_pos]
      · refine ⟨by rw [hrs_len]; omega, ?_⟩
        have h2 := two_le_dedup_of_nonconstant hrs_nc
        omega
      · push_neg
        exact ⟨by rw [hrs_len]; omega, by simp⟩
    rw [hguard]
    have hmem : (0 : ℝ) ∈ {s : ℝ | ∃ c : List ℝ, c.length = 1 + 1 ∧
        s = (((P.map Prod.fst).zip (P.map Prod.snd)).map
          (fun p => (p.2 - polyEval c p.1) ^ 2)).sum} := by
      refine ⟨[A, -k], rfl, ?_⟩
      rw [hzip2]
      have hmap : P.map (fun p => (p.2 - polyEval [A, -k] p.1) ^ 2) =
          P.map (fun _ => (0 : ℝ)) := by
        apply List.map_congr_left
        intro p hp
        rw [polyEval_pair, hPrel p hp]
        ring
      rw [hmap]
      simp
    have hlb : ∀ s ∈ {s : ℝ | ∃ c : List ℝ, c.length = 1 + 1 ∧
        s = (((P.map Prod.fst).zip (P.map Prod.snd)).map
          (fun p => (p.2 - polyEval c p.1) ^ 2)).sum}, (0 : ℝ) ≤ s := by
      rintro s ⟨c, hc, rfl⟩
      rw [zip_map_sum_eq_range _ _ _ (by simp)]
      apply Finset.sum_nonneg
      intro i _
      exact sq_nonneg _
    have hssr : lstsqSSR 1 (P.map Prod.fst) (P.map Prod.snd) = 0 := by
      unfold lstsqSSR
      exact le_antisymm (csInf_le ⟨0, hlb⟩ hmem) (le_csInf ⟨0, hmem⟩ hlb)
    rw [hssr]
  constructor
  · simp only [to_be_minimizedP1]
    rw [hPeq]
    exact hP1
  · simp only [to_be_minimizedSp]
    rw [hPeq]
    have hsp : errorSpearman pval (P.map Prod.fst) (P.map Prod.snd) = -1 := by
      show pearson (rankdata (P.map Prod.fst)) (rankdata (P.map Prod.snd)) = -1
      rw [hzs, rankdata_map_affine_neg _ A k hk]
      exact pearson_neg_affine (rankdata (P.map Prod.fst))
        (((P.map Prod.fst).length : ℝ) + 1) (rankdata_nonconstant hrs_nc)
    show some (errorSpearman pval (P.map Prod.fst) (P.map Prod.snd)) =
      some (-1)
    exact congrArg some hsp

end ConeCone
